import Mathlib

/-!
Verification of the osxdict dictionary-body reader.

The development shallowly embeds the reader: a file (and any in-memory
buffer) is a list of byte values, Python strings are lists of code points,
and every operation that can raise a Python exception returns an
`Except PyExc` value.  The embedding follows src/osxdict/structs.py and
src/osxdict/dictionary.py.
-/

namespace Osx

/-- Python exception classes raised by the reader. -/
inductive PyExc where
  | valueError
  | keyError
  | indexError
  | runtimeError
  | unicodeDecodeError
  | zlibError
deriving DecidableEq, Repr

/-- A Python str, as its list of code points. -/
abbrev Str := List Nat

deriving instance DecidableEq for Except

/-- Little-endian interpretation of a byte list (c_uint uses 4 bytes). -/
def le32 (bs : List Nat) : Nat :=
  bs.foldr (fun b acc => b + 256 * acc) 0

/-- The 4 little-endian bytes of a 32-bit value. -/
def le32Bytes (n : Nat) : List Nat :=
  [n % 256, n / 256 % 256, n / 65536 % 256, n / 16777216 % 256]

/-- Semantics of readinto into a fresh zero-initialized buffer of size n:
the available bytes are copied and the unread tail of the buffer stays 0. -/
def readBytesPad (src : List Nat) (pos n : Nat) : List Nat :=
  let got := (src.drop pos).take n
  got ++ List.replicate (n - got.length) 0

/-- Number of bytes actually delivered by readinto (the stream advances by
exactly this amount). -/
def bytesRead (src : List Nat) (pos n : Nat) : Nat :=
  ((src.drop pos).take n).length

/-- Field sizes of BlockHeader (next_block, block_length, unpacked_length;
three c_uint fields packed with _pack_ = 1). -/
def blockHeaderFieldSizes : List Nat := [4, 4, 4]

/-- ctypes offset of field i in a packed struct: the sum of the sizes of
the preceding fields. -/
def fieldOffset (sizes : List Nat) (i : Nat) : Nat :=
  ((sizes.take i).map id).sum

/-- BlockHeader.unpacked_length.offset (field 2 of the packed struct). -/
def unpackedLengthOffset : Nat := fieldOffset blockHeaderFieldSizes 2

/-- Parsed DictHeader (the 0x60-byte container header). -/
structure DictHeader where
  stream_length : Nat
  check : Nat
  block_count : Nat
deriving DecidableEq, Repr

/-- DictHeader.is_valid from structs.py. -/
def DictHeader.is_valid (h : DictHeader) : Bool :=
  h.check == 0x20

/-- Decode the three used DictHeader fields from the 0x60 header bytes
(stream_length at 0x40, check at 0x4c, block_count at 0x54). -/
def parseDictHeader (bytes : List Nat) : DictHeader :=
  { stream_length := le32 ((bytes.drop 0x40).take 4)
    check := le32 ((bytes.drop 0x4c).take 4)
    block_count := le32 ((bytes.drop 0x54).take 4) }

/-- DictionaryBody._read_body_header: read the 0x60-byte header from file
offset 0 (readinto zero-pads when the file is shorter), raise ValueError
when is_valid fails, otherwise return the header and the stream position
after the read (recorded as the position of block 0). -/
def readBodyHeader (file : List Nat) : Except PyExc (DictHeader × Nat) :=
  let h := parseDictHeader (readBytesPad file 0 0x60)
  if h.is_valid then .ok (h, bytesRead file 0 0x60) else .error .valueError

/-- The check value that readBodyHeader sees for a given file. -/
def parsedCheck (file : List Nat) : Nat :=
  (parseDictHeader (readBytesPad file 0 0x60)).check

/-- Parsed BlockHeader (the 0x0c-byte per-block header). -/
structure BlockHeader where
  next_block : Nat
  block_length : Nat
  unpacked_length : Nat
deriving DecidableEq, Repr

/-- BlockHeader.get_next_block from structs.py: the absolute offset of the
next block, derived from the stream position after the header read. -/
def BlockHeader.get_next_block (h : BlockHeader) (file_pos : Int) : Int :=
  file_pos + (h.next_block : Int) - (unpackedLengthOffset : Int)

/-- DictionaryBody._read_block_header with no index argument: readinto the
12 header bytes at the current position, derive the next-block offset from
the post-read position, and raise RuntimeError when block_length exceeds
the 1e8 sanity ceiling.  Returns (header, next offset, post-read position). -/
def readBlockHeaderAt (file : List Nat) (fpos : Nat) :
    Except PyExc (BlockHeader × Int × Nat) :=
  let bytes := readBytesPad file fpos 12
  let h : BlockHeader :=
    { next_block := le32 (bytes.take 4)
      block_length := le32 ((bytes.drop 4).take 4)
      unpacked_length := le32 ((bytes.drop 8).take 4) }
  let tell := fpos + bytesRead file fpos 12
  if h.block_length > 100000000 then .error .runtimeError
  else .ok (h, h.get_next_block (tell : Int), tell)

/-- DictionaryBody._read_raw_entry_block: read block_length compressed
bytes (zero-padded buffer on a short read), decompress them, and raise
RuntimeError when the decompressed size differs from unpacked_length.
The decompressor is a parameter, like the zlib collaborator. -/
def readRawEntryBlock (decompress : List Nat → Except PyExc (List Nat))
    (file : List Nat) (fpos : Nat) (h : BlockHeader) :
    Except PyExc (List Nat) :=
  match decompress (readBytesPad file fpos h.block_length) with
  | .error e => .error e
  | .ok buf =>
    if buf.length ≠ h.unpacked_length then .error .runtimeError else .ok buf

/-- Python dict lookup over an insertion-ordered association list. -/
def dictFind : List (Nat × Nat) → Nat → Option Nat
  | [], _ => none
  | (k, v) :: rest, key => if k = key then some v else dictFind rest key

/-- Python dict assignment: update the existing key in place, otherwise
append the new key at the end. -/
def dictInsert : List (Nat × Nat) → Nat → Nat → List (Nat × Nat)
  | [], k, v => [(k, v)]
  | (k0, v0) :: rest, k, v =>
    if k0 = k then (k0, v) :: rest else (k0, v0) :: dictInsert rest k v

/-- The walk inside DictionaryBody._find_blocks: for each remaining block,
record the current position in the table, read the block header there and
seek to the derived next-block offset.  Returns the final table together
with the number of block-header reads performed. -/
def findBlocksLoop (file : List Nat) :
    Nat → List (Nat × Nat) → Nat → Nat →
    Except PyExc (List (Nat × Nat) × Nat)
  | 0, bp, _, _ => .ok (bp, 0)
  | n + 1, bp, fpos, i =>
    let bp1 := dictInsert bp i fpos
    match readBlockHeaderAt file fpos with
    | .error e => .error e
    | .ok (_, next, _) =>
      if next < 0 then .error .valueError
      else
        match findBlocksLoop file n bp1 next.toNat (i + 1) with
        | .error e => .error e
        | .ok (bp2, r) => .ok (bp2, r + 1)

/-- DictionaryBody._find_blocks: return immediately when the position
table already has more than one entry, otherwise seek to the recorded
position of block 0 and walk the chain over block_count blocks.  The
second component counts the block-header reads performed by the call. -/
def findBlocks (file : List Nat) (block_count : Nat)
    (bp : List (Nat × Nat)) : Except PyExc (List (Nat × Nat) × Nat) :=
  if bp.length > 1 then .ok (bp, 0)
  else
    match dictFind bp 0 with
    | none => .error .keyError
    | some p0 => findBlocksLoop file block_count bp p0 0

/-- DictionaryBody.seek_block: run discovery, then look the index up in
the position table.  The dict lookup raises KeyError for a missing key;
the surrounding handler catches only IndexError (re-raising ValueError),
exactly as in the source.  Returns the table and the sought position. -/
def seekBlock (file : List Nat) (block_count : Nat)
    (bp : List (Nat × Nat)) (index : Nat) :
    Except PyExc (List (Nat × Nat) × Nat) :=
  match findBlocks file block_count bp with
  | .error e => .error e
  | .ok (bp1, _) =>
    match
      (match dictFind bp1 index with
       | some p => (.ok p : Except PyExc Nat)
       | none => .error .keyError) with
    | .error .indexError => .error .valueError
    | .error e => .error e
    | .ok p => .ok (bp1, p)

/-- One continuation byte of a UTF-8 sequence. -/
def isCont (b : Nat) : Bool := 0x80 ≤ b && b ≤ 0xBF

/-- Allowed first continuation byte of a 3-byte UTF-8 sequence (rejects
overlong forms and surrogates, as the strict Python codec does). -/
def threeByteC1Ok (b c1 : Nat) : Bool :=
  if b = 0xE0 then 0xA0 ≤ c1 && c1 ≤ 0xBF
  else if b = 0xED then 0x80 ≤ c1 && c1 ≤ 0x9F
  else isCont c1

/-- Allowed first continuation byte of a 4-byte UTF-8 sequence (rejects
overlong forms and code points above 0x10FFFF). -/
def fourByteC1Ok (b c1 : Nat) : Bool :=
  if b = 0xF0 then 0x90 ≤ c1 && c1 ≤ 0xBF
  else if b = 0xF4 then 0x80 ≤ c1 && c1 ≤ 0x8F
  else isCont c1

/-- Strict UTF-8 decoding of a byte list into code points, the default
text encoding of the dictionary (errors raise UnicodeDecodeError). -/
def utf8Decode : List Nat → Except PyExc Str
  | [] => .ok []
  | b :: rest =>
    if b ≤ 0x7F then (utf8Decode rest).map (fun t => b :: t)
    else if b < 0xC2 then .error .unicodeDecodeError
    else if b ≤ 0xDF then
      match rest with
      | [] => .error .unicodeDecodeError
      | c1 :: rest2 =>
        if isCont c1 then
          (utf8Decode rest2).map (fun t => ((b - 0xC0) * 64 + (c1 - 0x80)) :: t)
        else .error .unicodeDecodeError
    else if b ≤ 0xEF then
      match rest with
      | c1 :: c2 :: rest3 =>
        if threeByteC1Ok b c1 && isCont c2 then
          (utf8Decode rest3).map
            (fun t => ((b - 0xE0) * 4096 + (c1 - 0x80) * 64 + (c2 - 0x80)) :: t)
        else .error .unicodeDecodeError
      | _ => .error .unicodeDecodeError
    else if b ≤ 0xF4 then
      match rest with
      | c1 :: c2 :: c3 :: rest4 =>
        if fourByteC1Ok b c1 && isCont c2 && isCont c3 then
          (utf8Decode rest4).map
            (fun t => ((b - 0xF0) * 262144 + (c1 - 0x80) * 4096
                        + (c2 - 0x80) * 64 + (c3 - 0x80)) :: t)
        else .error .unicodeDecodeError
      | _ => .error .unicodeDecodeError
    else .error .unicodeDecodeError

/-- DictionaryBody._entry_from_block on an in-memory buffer: readinto the
4-byte EntryHeader at the cursor, readinto length payload bytes (the
payload buffer is zero-initialized, so a short read leaves zero bytes),
decode the payload, and return the text with the new cursor position.
The decoder is a parameter, like the configured encoding. -/
def entryFromBlock (decode : List Nat → Except PyExc Str)
    (buf : List Nat) (pos : Nat) : Except PyExc (Str × Nat) :=
  let hdr := readBytesPad buf pos 4
  let pos1 := pos + bytesRead buf pos 4
  let n := le32 hdr
  let raw := readBytesPad buf pos1 n
  let pos2 := pos1 + bytesRead buf pos1 n
  match decode raw with
  | .error e => .error e
  | .ok t => .ok (t, pos2)

/-- The while loop of DictionaryBody._read_entries: while the cursor is
inside the buffer, record the cursor, read one entry and yield the pair.
Fuel-indexed; each iteration advances the cursor by at least one byte, so
a fuel of one more than the buffer length is never exhausted.  Returns
the yielded (offset, text) pairs and the exception, if one aborted the
enumeration. -/
def readEntriesAux (decode : List Nat → Except PyExc Str)
    (buf : List Nat) : Nat → Nat → List (Nat × Str) × Option PyExc
  | 0, _ => ([], none)
  | fuel + 1, pos =>
    if pos < buf.length then
      match entryFromBlock decode buf pos with
      | .error e => ([], some e)
      | .ok (t, pos2) =>
        let r := readEntriesAux decode buf fuel pos2
        ((pos, t) :: r.1, r.2)
    else ([], none)

/-- DictionaryBody._read_entries on a decompressed buffer. -/
def readEntries (decode : List Nat → Except PyExc Str) (buf : List Nat) :
    List (Nat × Str) × Option PyExc :=
  readEntriesAux decode buf (buf.length + 1) 0

/-- DictionaryBody._read_entry after decompression: frame one entry from
the slice of the decompressed buffer starting at the recorded offset
(io.BytesIO(raw_entries[offset:]) read from position 0). -/
def readEntryFromBuf (decode : List Nat → Except PyExc Str)
    (buf : List Nat) (off : Nat) : Except PyExc Str :=
  match entryFromBlock decode (buf.drop off) 0 with
  | .error e => .error e
  | .ok (t, _) => .ok t

/-- The yields of DictionaryBody.read_all_entries, given the decompressed
buffer of each block in index order: every block contributes its framed
entries as (block, offset, text) triples. -/
def blockScanAux (decode : List Nat → Except PyExc Str) :
    Nat → List (List Nat) → List (Nat × Nat × Str)
  | _, [] => []
  | b, buf :: rest =>
    (readEntries decode buf).1.map (fun p => (b, p.1, p.2))
      ++ blockScanAux decode (b + 1) rest

/-- read_all_entries starting at block 0. -/
def blockScan (decode : List Nat → Except PyExc Str)
    (bufs : List (List Nat)) : List (Nat × Nat × Str) :=
  blockScanAux decode 0 bufs

/-- Does hay start with needle? -/
def strStartsWith : List Nat → List Nat → Bool
  | _, [] => true
  | [], _ :: _ => false
  | a :: as, b :: bs => a == b && strStartsWith as bs

/-- First position of needle inside hay, if any. -/
def findSub (needle : List Nat) : List Nat → Option Nat
  | [] => if needle = [] then some 0 else none
  | a :: t =>
    if strStartsWith (a :: t) needle then some 0
    else (findSub needle t).map (fun i => i + 1)

/-- Python str.index: the first position of the substring, raising
ValueError when it does not occur. -/
def strIndex (hay needle : List Nat) : Except PyExc Nat :=
  match findSub needle hay with
  | some i => .ok i
  | none => .error .valueError

/-- The in-memory title index: insertion-ordered map from title to the
list of (block, offset) locations. -/
abbrev Idx := List (Str × List (Nat × Nat))

/-- Lookup in the title index. -/
def idxFind : Idx → Str → Option (List (Nat × Nat))
  | [], _ => none
  | (k, v) :: rest, t => if k = t then some v else idxFind rest t

/-- The index update of build_index: append the location to the list held
for the title, creating a one-element list for a new title. -/
def appendIdx : Idx → Str → Nat × Nat → Idx
  | [], t, bo => [(t, [bo])]
  | (k, v) :: rest, t, bo =>
    if k = t then (k, v ++ [bo]) :: rest else (k, v) :: appendIdx rest t bo

/-- The marker searched by build_index: the title attribute name followed
by =" (the format string of the source). -/
def mkTitleTag (t : Str) : Str := t ++ [61, 34]

/-- One iteration of the build_index loop: find the marker with str.index
(a handler catches only IndexError and skips the entry), slice the text
after the marker, cut at the next double quote with a second unguarded
str.index, and append non-empty titles to the index. -/
def processEntry (fullTag : Str) (idx : Idx) (e : Nat × Nat × Str) :
    Except PyExc Idx :=
  match strIndex e.2.2 fullTag with
  | .error .indexError => .ok idx
  | .error err => .error err
  | .ok i =>
    let title0 := e.2.2.drop (i + fullTag.length)
    match strIndex title0 [34] with
    | .error err => .error err
    | .ok j =>
      let title := title0.take j
      if title = [] then .ok idx else .ok (appendIdx idx title (e.1, e.2.1))

/-- The build_index fold over the scanned triples. -/
def buildIndexAux (fullTag : Str) (idx : Idx) :
    List (Nat × Nat × Str) → Except PyExc Idx
  | [] => .ok idx
  | e :: rest =>
    match processEntry fullTag idx e with
    | .error err => .error err
    | .ok idx2 => buildIndexAux fullTag idx2 rest

/-- DictionaryBody.build_index over the triples yielded by the full scan,
starting from an empty index. -/
def buildIndexFromScan (titleTag : Str)
    (scan : List (Nat × Nat × Str)) : Except PyExc Idx :=
  buildIndexAux (mkTitleTag titleTag) [] scan

/-- DictionaryBody.__getitem__ without a cache: look the word up in the
index (KeyError when absent) and interpret the entry read for each
recorded location, in list order. -/
def getItem {α : Type} (interpret : Str → α)
    (readE : Nat × Nat → Except PyExc Str) (idx : Idx) (word : Str) :
    Except PyExc (List α) :=
  match idxFind idx word with
  | none => .error .keyError
  | some offs => offs.mapM (fun bo => (readE bo).map interpret)

/-- The title that build_index would extract from an entry text, as a
pure function: the substring between the marker and the next double
quote, when the marker occurs, the quote follows and the title is
non-empty. -/
def titleOf (fullTag : Str) (text : Str) : Option Str :=
  match findSub fullTag text with
  | none => none
  | some i =>
    let title0 := text.drop (i + fullTag.length)
    match findSub [34] title0 with
    | none => none
    | some j =>
      let title := title0.take j
      if title = [] then none else some title

/-- The locations of the scanned entries carrying a given title, in scan
order. -/
def scanLocations (fullTag : Str) (title : Str)
    (scan : List (Nat × Nat × Str)) : List (Nat × Nat) :=
  scan.filterMap
    (fun e => if titleOf fullTag e.2.2 = some title then some (e.1, e.2.1) else none)

/-- The default title attribute name of the source, d:title. -/
def dtag : Str := [100, 58, 116, 105, 116, 108, 101]

/-- A file shorter than the 0x60-byte header whose check field still
parses as 0x20. -/
def shortFile : List Nat := List.replicate 0x4c 0 ++ [0x20, 0, 0, 0]

/-- A complete valid 0x60-byte header with zero block count. -/
def validFile : List Nat :=
  List.replicate 0x4c 0 ++ [0x20, 0, 0, 0] ++ List.replicate 0x10 0

/-- A one-block container: valid header, block_count 1, one block header
followed by a two-byte payload. -/
def demoFile1 : List Nat :=
  List.replicate 0x4c 0 ++ [0x20, 0, 0, 0] ++ List.replicate 4 0
    ++ [1, 0, 0, 0] ++ List.replicate 8 0
    ++ [0, 0, 0, 0, 2, 0, 0, 0, 9, 0, 0, 0] ++ [7, 7]

/-- A two-block container: valid header, block_count 2, first block with
a two-byte payload chaining to the second block. -/
def demoFile2 : List Nat :=
  List.replicate 0x4c 0 ++ [0x20, 0, 0, 0] ++ List.replicate 4 0
    ++ [2, 0, 0, 0] ++ List.replicate 8 0
    ++ [10, 0, 0, 0, 2, 0, 0, 0, 2, 0, 0, 0] ++ [7, 7]
    ++ List.replicate 12 0

/-- An entry text with title a: the marker, the title and the closing
quote, in code points. -/
def demoTxt : Str := mkTitleTag dtag ++ [97, 34]

/-- A scan with the same title a in two blocks. -/
def demoScan : List (Nat × Nat × Str) := [(0, 0, demoTxt), (1, 5, demoTxt)]

/-- The index built from demoScan. -/
def demoIdx : Idx := [([97], [(0, 0), (1, 5)])]

/-- A scan whose single entry text, hello, has no title marker. -/
def demoScanNoMarker : List (Nat × Nat × Str) :=
  [(0, 0, [104, 101, 108, 108, 111])]

/-- A one-entry block buffer: EntryHeader length 11 followed by the
demoTxt bytes (all ASCII). -/
def demoBuf : List Nat := [11, 0, 0, 0] ++ demoTxt



/-- A readinto target buffer always has exactly the requested size. -/
theorem readBytesPad_length (src : List Nat) (pos n : Nat) :
    (readBytesPad src pos n).length = n := by
  simp only [readBytesPad, List.length_append, List.length_replicate]
  have := List.length_take n (src.drop pos)
  omega

/-- Little-endian round trip for 32-bit values. -/
theorem le32_le32Bytes (n : Nat) (h : n < 4294967296) :
    le32 (le32Bytes n) = n := by
  simp only [le32, le32Bytes, List.foldr]
  omega

/-- Reading at a position where the remaining bytes start with a 4-byte
header: the header bytes are read whole and the cursor lands after them. -/
theorem drop_eq_header (buf : List Nat) (pos N : Nat) (tail : List Nat)
    (hdrop : buf.drop pos = le32Bytes N ++ tail) :
    readBytesPad buf pos 4 = le32Bytes N ∧ bytesRead buf pos 4 = 4 ∧
    buf.drop (pos + 4) = tail ∧ buf.length - pos = 4 + tail.length := by
  have hlen4 : (le32Bytes N).length = 4 := by simp [le32Bytes]
  have htake : (buf.drop pos).take 4 = le32Bytes N := by
    rw [hdrop, ← hlen4, List.take_left]
  have hlen : ((buf.drop pos).take 4).length = 4 := by rw [htake, hlen4]
  refine ⟨?_, hlen, ?_, ?_⟩
  · simp only [readBytesPad, hlen, htake]
    simp [hlen4]
  · rw [← List.drop_drop, hdrop, ← hlen4, List.drop_left]
  · have := congrArg List.length hdrop
    simp only [List.length_drop, List.length_append, hlen4] at this
    omega


/-- Claim C1: for every block header h and stream position taken
immediately after reading the 12-byte block header, the derived absolute
offset of the next block equals that position plus h.next_block minus 8,
where 8 is the offset of the unpacked_length field within BlockHeader. -/
theorem nextBlock_arith (file : List Nat) (fpos : Nat) (h : BlockHeader)
    (next : Int) (tell : Nat)
    (hread : readBlockHeaderAt file fpos = .ok (h, next, tell)) :
    next = (tell : Int) + (h.next_block : Int) - 8 ∧
    unpackedLengthOffset = 8 := by
  refine ⟨?_, by decide⟩
  simp only [readBlockHeaderAt] at hread
  split at hread
  · cases hread
  · rw [Except.ok.injEq, Prod.mk.injEq, Prod.mk.injEq] at hread
    obtain ⟨hh, hnext, htell⟩ := hread
    subst hh htell
    rw [← hnext]
    simp [BlockHeader.get_next_block]
    decide

/-- Witness for C1 at a concrete header read. -/
theorem nextBlock_arith_witness :
    (20 : Int) = ((12 : Nat) : Int) + (((⟨16, 2, 9⟩ : BlockHeader).next_block : Nat) : Int) - 8 ∧
    unpackedLengthOffset = 8 :=
  nextBlock_arith [16, 0, 0, 0, 2, 0, 0, 0, 9, 0, 0, 0] 0 ⟨16, 2, 9⟩ 20 12 (by decide)

/-- Counterexample to claim C2: a file of 0x50 bytes, shorter than the
0x60-byte header, whose zero-padded check field parses as 0x20, is opened
successfully instead of failing. -/
theorem shortFile_opens :
    shortFile.length < 0x60 ∧
    readBodyHeader shortFile = .ok (⟨0, 0x20, 0⟩, 80) := by decide

/-- Claim C2 (amended): open succeeds exactly when the check field parsed
from the zero-padded first 0x60 bytes equals 0x20, and fails with
ValueError (FormatError) otherwise; a short file alone is not rejected. -/
theorem open_iff_check (file : List Nat) :
    (parsedCheck file = 0x20 →
      readBodyHeader file =
        .ok (parseDictHeader (readBytesPad file 0 0x60), bytesRead file 0 0x60)) ∧
    (parsedCheck file ≠ 0x20 → readBodyHeader file = .error .valueError) := by
  unfold parsedCheck readBodyHeader DictHeader.is_valid
  constructor <;> intro hc <;> simp [hc]

/-- Witness for C2 (amended): a valid full header opens, an all-zero
header fails with ValueError. -/
theorem open_iff_check_witness :
    readBodyHeader validFile =
      .ok (parseDictHeader (readBytesPad validFile 0 0x60), bytesRead validFile 0 0x60) ∧
    readBodyHeader (List.replicate 0x60 0) = .error .valueError :=
  ⟨(open_iff_check validFile).1 (by decide),
   (open_iff_check (List.replicate 0x60 0)).2 (by decide)⟩

/-- Claim C3: reading and decompressing a block payload either yields a
buffer of exactly unpacked_length bytes or raises: a length mismatch
raises RuntimeError (DataCorruptionError) and a decompressor failure
propagates; a buffer of any other length is never returned. -/
theorem rawBlock_length_exact (decompress : List Nat → Except PyExc (List Nat))
    (file : List Nat) (fpos : Nat) (h : BlockHeader) :
    (∀ r, readRawEntryBlock decompress file fpos h = .ok r →
      r.length = h.unpacked_length) ∧
    (∀ d, decompress (readBytesPad file fpos h.block_length) = .ok d →
      d.length ≠ h.unpacked_length →
      readRawEntryBlock decompress file fpos h = .error .runtimeError) ∧
    (∀ e, decompress (readBytesPad file fpos h.block_length) = .error e →
      readRawEntryBlock decompress file fpos h = .error e) := by
  refine ⟨?_, ?_, ?_⟩
  · intro r hr
    unfold readRawEntryBlock at hr
    cases hd : decompress (readBytesPad file fpos h.block_length) with
    | error e => rw [hd] at hr; cases hr
    | ok buf =>
      rw [hd] at hr
      by_cases hl : buf.length = h.unpacked_length
      · simp only [hl, ne_eq, not_true_eq_false, if_false] at hr
        cases hr
        exact hl
      · simp [hl] at hr
  · intro d hd hne
    unfold readRawEntryBlock
    rw [hd]
    simp [hne]
  · intro e he
    unfold readRawEntryBlock
    rw [he]

/-- Witness for C3: exact length on success, RuntimeError on a length
mismatch, propagation of a zlib failure, at concrete inputs. -/
theorem rawBlock_length_exact_witness :
    ([1, 0, 0, 0, 65] : List Nat).length = (⟨0, 5, 5⟩ : BlockHeader).unpacked_length ∧
    readRawEntryBlock (fun b => .ok (b ++ [0])) [1, 0, 0, 0, 65] 0 ⟨0, 5, 5⟩ =
      .error .runtimeError ∧
    readRawEntryBlock (fun _ => .error .zlibError) [1, 0, 0, 0, 65] 0 ⟨0, 5, 5⟩ =
      .error .zlibError :=
  ⟨(rawBlock_length_exact (fun b => .ok b) [1, 0, 0, 0, 65] 0 ⟨0, 5, 5⟩).1
      [1, 0, 0, 0, 65] (by decide),
   (rawBlock_length_exact (fun b => .ok (b ++ [0])) [1, 0, 0, 0, 65] 0 ⟨0, 5, 5⟩).2.1
      ([1, 0, 0, 0, 65] ++ [0]) (by decide) (by decide),
   (rawBlock_length_exact (fun _ => .error .zlibError) [1, 0, 0, 0, 65] 0 ⟨0, 5, 5⟩).2.2
      .zlibError (by decide)⟩

/-- Claim C6 is a code bug: on an entry text without the title marker,
str.index raises ValueError, the handler catches only IndexError, and
build_index aborts with the ValueError instead of skipping the entry. -/
theorem buildIndex_missing_marker_raises :
    buildIndexFromScan dtag demoScanNoMarker = .error .valueError := by decide

/-- Claim C7 is a code bug: seek_block on an out-of-range index fails with
the uncaught KeyError of the dict lookup, not with the intended
ValueError (RangeError) of the dead IndexError handler. -/
theorem seekBlock_out_of_range_keyError :
    seekBlock demoFile1 1 [(0, 96)] 3 = .error .keyError := by decide


/-- Claim C5: an entry laid out at the cursor as a 4-byte EntryHeader with
length N followed by N bytes of validly encoded text is framed back to
exactly that text, is yielded at the offset of the entry header, and
leaves the cursor at header size + N. -/
theorem entry_roundtrip (decode : List Nat → Except PyExc Str)
    (buf : List Nat) (pos N : Nat) (payload rest : List Nat) (t : Str)
    (fuel : Nat) (hN : N < 4294967296)
    (hdrop : buf.drop pos = le32Bytes N ++ (payload ++ rest))
    (hlen : payload.length = N) (hdec : decode payload = .ok t) :
    entryFromBlock decode buf pos = .ok (t, pos + 4 + N) ∧
    readEntriesAux decode buf (fuel + 1) pos =
      ((pos, t) :: (readEntriesAux decode buf fuel (pos + 4 + N)).1,
       (readEntriesAux decode buf fuel (pos + 4 + N)).2) := by
  obtain ⟨hhdr, hbr4, hdrop4, hlen0⟩ := drop_eq_header buf pos N (payload ++ rest) hdrop
  have hN32 : le32 (le32Bytes N) = N := le32_le32Bytes N hN
  have htake : (payload ++ rest).take N = payload := by
    rw [← hlen, List.take_left]
  have hraw : readBytesPad buf (pos + 4) N = payload := by
    simp only [readBytesPad, hdrop4, htake, hlen]
    simp
  have hbrN : bytesRead buf (pos + 4) N = N := by
    simp only [bytesRead, hdrop4, htake, hlen]
  have hentry : entryFromBlock decode buf pos = .ok (t, pos + 4 + N) := by
    simp only [entryFromBlock, hhdr, hbr4, hN32, hraw, hbrN, hdec]
  refine ⟨hentry, ?_⟩
  have hposlt : pos < buf.length := by
    simp only [List.length_append] at hlen0
    omega
  simp only [readEntriesAux, if_pos hposlt, hentry]

/-- Witness for C5: a buffer holding one entry of length 1 with text A. -/
theorem entry_roundtrip_witness :
    entryFromBlock utf8Decode [1, 0, 0, 0, 65] 0 = .ok ([65], 0 + 4 + 1) ∧
    readEntriesAux utf8Decode [1, 0, 0, 0, 65] (4 + 1) 0 =
      ((0, [65]) :: (readEntriesAux utf8Decode [1, 0, 0, 0, 65] 4 (0 + 4 + 1)).1,
       (readEntriesAux utf8Decode [1, 0, 0, 0, 65] 4 (0 + 4 + 1)).2) :=
  entry_roundtrip utf8Decode [1, 0, 0, 0, 65] 0 1 [65] [] [65] 4
    (by decide) (by decide) (by decide) (by decide)

/-- Claim C10: when the final entry header declares a length exceeding the
bytes remaining in the buffer, the framer raises no error: the payload
buffer keeps its full declared length, its unread suffix stays zero, the
decoded text of that zero-padded buffer is yielded at the offset of the
entry header, and the enumeration terminates normally. -/
theorem truncated_final_entry (decode : List Nat → Except PyExc Str)
    (buf : List Nat) (pos N : Nat) (payload : List Nat) (t : Str)
    (fuel : Nat) (hN : N < 4294967296)
    (hdrop : buf.drop pos = le32Bytes N ++ payload)
    (hshort : payload.length < N)
    (hdec : decode (payload ++ List.replicate (N - payload.length) 0) = .ok t) :
    entryFromBlock decode buf pos = .ok (t, buf.length) ∧
    readEntriesAux decode buf (fuel + 2) pos = ([(pos, t)], none) ∧
    (readBytesPad buf (pos + 4) N).length = N := by
  obtain ⟨hhdr, hbr4, hdrop4, hlen0⟩ := drop_eq_header buf pos N payload hdrop
  have hN32 : le32 (le32Bytes N) = N := le32_le32Bytes N hN
  have htake : payload.take N = payload :=
    List.take_of_length_le (Nat.le_of_lt hshort)
  have hraw : readBytesPad buf (pos + 4) N =
      payload ++ List.replicate (N - payload.length) 0 := by
    simp only [readBytesPad, hdrop4, htake]
  have hbrN : bytesRead buf (pos + 4) N = payload.length := by
    simp only [bytesRead, hdrop4, htake]
  have hbl : buf.length = pos + 4 + payload.length := by omega
  have hentry : entryFromBlock decode buf pos = .ok (t, buf.length) := by
    simp only [entryFromBlock, hhdr, hbr4, hN32, hraw, hbrN, hdec, hbl]
  have hposlt : pos < buf.length := by omega
  refine ⟨hentry, ?_, readBytesPad_length buf (pos + 4) N⟩
  simp only [readEntriesAux, if_pos hposlt, hentry]
  simp [readEntriesAux]

/-- Witness for C10: the final entry declares 5 bytes with only 2 left;
the text AB followed by three NUL code points is yielded and the
enumeration ends cleanly. -/
theorem truncated_final_entry_witness :
    entryFromBlock utf8Decode [5, 0, 0, 0, 65, 66] 0 =
      .ok ([65, 66, 0, 0, 0], ([5, 0, 0, 0, 65, 66] : List Nat).length) ∧
    readEntriesAux utf8Decode [5, 0, 0, 0, 65, 66] (0 + 2) 0 =
      ([(0, [65, 66, 0, 0, 0])], none) ∧
    (readBytesPad [5, 0, 0, 0, 65, 66] (0 + 4) 5).length = 5 :=
  truncated_final_entry utf8Decode [5, 0, 0, 0, 65, 66] 0 5 [65, 66]
    [65, 66, 0, 0, 0] 0 (by decide) (by decide) (by decide) (by decide)


/-- dict assignment makes the key readable. -/
theorem dictFind_dictInsert_self (bp : List (Nat × Nat)) (k v : Nat) :
    dictFind (dictInsert bp k v) k = some v := by
  induction bp with
  | nil => simp [dictInsert, dictFind]
  | cons p rest ih =>
    obtain ⟨k0, v0⟩ := p
    by_cases h : k0 = k
    · simp [dictInsert, dictFind, h]
    · simp [dictInsert, dictFind, h, ih]

/-- dict assignment leaves other keys untouched. -/
theorem dictFind_dictInsert_ne (bp : List (Nat × Nat)) (k v k' : Nat)
    (h : k' ≠ k) : dictFind (dictInsert bp k v) k' = dictFind bp k' := by
  induction bp with
  | nil =>
    simp only [dictInsert, dictFind]
    rw [if_neg (fun hh => h hh.symm)]
  | cons p rest ih =>
    obtain ⟨k0, v0⟩ := p
    simp only [dictInsert]
    by_cases h0 : k0 = k
    · rw [if_pos h0]
      simp only [dictFind]
      subst h0
      rw [if_neg (fun hh => h hh.symm), if_neg (fun hh => h hh.symm)]
    · rw [if_neg h0]
      simp only [dictFind]
      by_cases h1 : k0 = k'
      · rw [if_pos h1, if_pos h1]
      · rw [if_neg h1, if_neg h1, ih]

/-- Re-assigning the value a key already holds leaves the dict unchanged. -/
theorem dictInsert_find_eq (bp : List (Nat × Nat)) (k v : Nat)
    (h : dictFind bp k = some v) : dictInsert bp k v = bp := by
  induction bp with
  | nil => simp [dictFind] at h
  | cons p rest ih =>
    obtain ⟨k0, v0⟩ := p
    by_cases h0 : k0 = k
    · subst h0
      simp [dictFind] at h
      simp [dictInsert, h]
    · simp only [dictFind, if_neg h0] at h
      simp [dictInsert, h0, ih h]

/-- The discovery walk does not modify table entries below its starting
block index. -/
theorem findBlocksLoop_find_lt (file : List Nat) :
    ∀ n bp fpos i bp' r, findBlocksLoop file n bp fpos i = .ok (bp', r) →
    ∀ k, k < i → dictFind bp' k = dictFind bp k := by
  intro n
  induction n with
  | zero =>
    intro bp fpos i bp' r h k _
    simp only [findBlocksLoop, Except.ok.injEq, Prod.mk.injEq] at h
    rw [h.1]
  | succ n ih =>
    intro bp fpos i bp' r h k hk
    simp only [findBlocksLoop] at h
    cases hrb : readBlockHeaderAt file fpos with
    | error e => rw [hrb] at h; cases h
    | ok trip =>
      obtain ⟨hh, next, tell⟩ := trip
      rw [hrb] at h
      by_cases hneg : next < 0
      · simp [hneg] at h
      · simp only [if_neg hneg] at h
        cases hloop : findBlocksLoop file n (dictInsert bp i fpos) next.toNat (i + 1) with
        | error e => rw [hloop] at h; cases h
        | ok pr =>
          obtain ⟨bp2, r2⟩ := pr
          rw [hloop, Except.ok.injEq, Prod.mk.injEq] at h
          obtain ⟨hbp, _⟩ := h
          subst hbp
          rw [ih (dictInsert bp i fpos) next.toNat (i + 1) bp2 r2 hloop k (by omega),
            dictFind_dictInsert_ne bp i fpos k (by omega)]

/-- After a non-empty walk the table holds the starting position under the
starting block index. -/
theorem findBlocksLoop_find_start (file : List Nat) (n : Nat)
    (bp : List (Nat × Nat)) (fpos i : Nat) (bp' : List (Nat × Nat)) (r : Nat)
    (hn : n ≠ 0) (h : findBlocksLoop file n bp fpos i = .ok (bp', r)) :
    dictFind bp' i = some fpos := by
  cases n with
  | zero => exact absurd rfl hn
  | succ n =>
    simp only [findBlocksLoop] at h
    cases hrb : readBlockHeaderAt file fpos with
    | error e => rw [hrb] at h; cases h
    | ok trip =>
      obtain ⟨hh, next, tell⟩ := trip
      rw [hrb] at h
      by_cases hneg : next < 0
      · simp [hneg] at h
      · simp only [if_neg hneg] at h
        cases hloop : findBlocksLoop file n (dictInsert bp i fpos) next.toNat (i + 1) with
        | error e => rw [hloop] at h; cases h
        | ok pr =>
          obtain ⟨bp2, r2⟩ := pr
          rw [hloop, Except.ok.injEq, Prod.mk.injEq] at h
          obtain ⟨hbp, _⟩ := h
          subst hbp
          rw [findBlocksLoop_find_lt file n (dictInsert bp i fpos) next.toNat
              (i + 1) bp2 r2 hloop i (by omega)]
          exact dictFind_dictInsert_self bp i fpos

/-- Re-running the discovery walk from its own result changes nothing:
the same table comes back with the same number of header reads. -/
theorem findBlocksLoop_replay (file : List Nat) :
    ∀ n bp fpos i bp' r, findBlocksLoop file n bp fpos i = .ok (bp', r) →
    findBlocksLoop file n bp' fpos i = .ok (bp', r) := by
  intro n
  induction n with
  | zero =>
    intro bp fpos i bp' r h
    simp only [findBlocksLoop, Except.ok.injEq, Prod.mk.injEq] at h ⊢
    exact ⟨trivial, h.2⟩
  | succ n ih =>
    intro bp fpos i bp' r h
    simp only [findBlocksLoop] at h ⊢
    cases hrb : readBlockHeaderAt file fpos with
    | error e => rw [hrb] at h; cases h
    | ok trip =>
      obtain ⟨hh, next, tell⟩ := trip
      rw [hrb] at h
      by_cases hneg : next < 0
      · simp [hneg] at h
      · simp only [if_neg hneg] at h ⊢
        cases hloop : findBlocksLoop file n (dictInsert bp i fpos) next.toNat (i + 1) with
        | error e => rw [hloop] at h; cases h
        | ok pr =>
          obtain ⟨bp2, r2⟩ := pr
          rw [hloop, Except.ok.injEq, Prod.mk.injEq] at h
          obtain ⟨hbp, hr⟩ := h
          subst hbp
          have hfind : dictFind bp2 i = some fpos := by
            rw [findBlocksLoop_find_lt file n (dictInsert bp i fpos) next.toNat
                (i + 1) bp2 r2 hloop i (by omega)]
            exact dictFind_dictInsert_self bp i fpos
          rw [dictInsert_find_eq bp2 i fpos hfind, ih (dictInsert bp i fpos)
              next.toNat (i + 1) bp2 r2 hloop, ← hr]

/-- Counterexample to claim C4: on a one-block container the position
table after discovery still has a single entry, so a second call re-walks
the chain and performs one more block-header read instead of none. -/
theorem findBlocks_second_call_reads :
    findBlocks demoFile1 1 [(0, 96)] = .ok ([(0, 96)], 1) ∧
    ∃ r2, findBlocks demoFile1 1 [(0, 96)] = .ok ([(0, 96)], r2) ∧ 0 < r2 :=
  ⟨by decide, 1, by decide, by decide⟩

/-- Claim C4 (amended): a second discovery call yields the identical
position table, and performs no file reads whenever the table holds more
than one entry (containers of at least two blocks); with at most one
block the walk re-runs, still reproducing the identical table. -/
theorem findBlocks_idempotent (file : List Nat) (bc : Nat)
    (bp bp1 : List (Nat × Nat)) (r1 : Nat)
    (h : findBlocks file bc bp = .ok (bp1, r1)) :
    ∃ r2, findBlocks file bc bp1 = .ok (bp1, r2) ∧
      (1 < bp1.length → r2 = 0) := by
  unfold findBlocks at h ⊢
  by_cases hlen : bp.length > 1
  · rw [if_pos hlen, Except.ok.injEq, Prod.mk.injEq] at h
    obtain ⟨hbp, _⟩ := h
    subst hbp
    rw [if_pos hlen]
    exact ⟨0, rfl, fun _ => rfl⟩
  · rw [if_neg hlen] at h
    cases hfind : dictFind bp 0 with
    | none => rw [hfind] at h; cases h
    | some p0 =>
      rw [hfind] at h
      by_cases hlen1 : bp1.length > 1
      · rw [if_pos hlen1]
        exact ⟨0, rfl, fun _ => rfl⟩
      · rw [if_neg hlen1]
        have hfind1 : dictFind bp1 0 = some p0 := by
          cases bc with
          | zero =>
            simp only [findBlocksLoop, Except.ok.injEq, Prod.mk.injEq] at h
            obtain ⟨hbp, _⟩ := h
            subst hbp
            exact hfind
          | succ n =>
            exact findBlocksLoop_find_start file (n + 1) bp p0 0 bp1 r1
              (by omega) h
        rw [hfind1]
        exact ⟨r1, findBlocksLoop_replay file bc bp p0 0 bp1 r1 h,
          fun hh => absurd hh hlen1⟩

/-- Witness for C4 (amended) on a two-block container: after discovery
the table has two entries and the second call reads nothing. -/
theorem findBlocks_idempotent_witness :
    findBlocks demoFile2 2 [(0, 96), (1, 110)] = .ok ([(0, 96), (1, 110)], 0) := by
  obtain ⟨r2, h2, h0⟩ :=
    findBlocks_idempotent demoFile2 2 [(0, 96)] [(0, 96), (1, 110)] 2 (by decide)
  rw [h0 (by decide)] at h2
  exact h2


/-- Appending a location for a title extends exactly that title's list at
its end. -/
theorem idxFind_appendIdx_self (idx : Idx) (t : Str) (bo : Nat × Nat) :
    (idxFind (appendIdx idx t bo) t).getD [] =
      (idxFind idx t).getD [] ++ [bo] := by
  induction idx with
  | nil => simp [appendIdx, idxFind]
  | cons p rest ih =>
    obtain ⟨k, v⟩ := p
    by_cases hk : k = t
    · simp [appendIdx, idxFind, hk]
    · simp [appendIdx, idxFind, hk, ih]

/-- Appending a location for a title leaves other titles untouched. -/
theorem idxFind_appendIdx_ne (idx : Idx) (t : Str) (bo : Nat × Nat)
    (t' : Str) (h : t' ≠ t) :
    idxFind (appendIdx idx t bo) t' = idxFind idx t' := by
  induction idx with
  | nil =>
    simp only [appendIdx, idxFind]
    rw [if_neg (fun hh => h hh.symm)]
  | cons p rest ih =>
    obtain ⟨k, v⟩ := p
    simp only [appendIdx]
    by_cases hk : k = t
    · rw [if_pos hk]
      simp only [idxFind]
      subst hk
      by_cases hk' : k = t'
      · exact absurd (hk' ▸ h) (fun hh => hh rfl)
      · rw [if_neg hk', if_neg hk']
    · rw [if_neg hk]
      simp only [idxFind]
      by_cases hk' : k = t'
      · rw [if_pos hk', if_pos hk']
      · rw [if_neg hk', if_neg hk', ih]

/-- A successful build_index step either skipped the entry (no extractable
title) or appended its location under the extracted title. -/
theorem processEntry_cases (fullTag : Str) (idx : Idx) (e : Nat × Nat × Str)
    (idx1 : Idx) (h : processEntry fullTag idx e = .ok idx1) :
    (titleOf fullTag e.2.2 = none ∧ idx1 = idx) ∨
    (∃ ttl, titleOf fullTag e.2.2 = some ttl ∧
      idx1 = appendIdx idx ttl (e.1, e.2.1)) := by
  unfold processEntry strIndex at h
  cases h1 : findSub fullTag e.2.2 with
  | none => rw [h1] at h; simp at h
  | some i =>
    rw [h1] at h
    simp only at h
    cases h2 : findSub [34] (e.2.2.drop (i + fullTag.length)) with
    | none => rw [h2] at h; simp at h
    | some j =>
      rw [h2] at h
      simp only at h
      by_cases ht : (e.2.2.drop (i + fullTag.length)).take j = []
      · rw [if_pos ht] at h
        rw [Except.ok.injEq] at h
        left
        refine ⟨?_, h.symm⟩
        simp only [titleOf, h1, h2]
        simp [ht]
      · rw [if_neg ht] at h
        rw [Except.ok.injEq] at h
        right
        refine ⟨(e.2.2.drop (i + fullTag.length)).take j, ?_, h.symm⟩
        simp only [titleOf, h1, h2]
        simp [ht]

/-- The build_index fold invariant: on success, each title's location list
grows by exactly the locations of the scanned entries carrying it, in
scan order. -/
theorem buildIndexAux_find (fullTag : Str) :
    ∀ (scan : List (Nat × Nat × Str)) (idx0 idx : Idx),
    buildIndexAux fullTag idx0 scan = .ok idx →
    ∀ t, (idxFind idx t).getD [] =
      (idxFind idx0 t).getD [] ++ scanLocations fullTag t scan := by
  intro scan
  induction scan with
  | nil =>
    intro idx0 idx h t
    simp only [buildIndexAux, Except.ok.injEq] at h
    subst h
    simp [scanLocations]
  | cons e rest ih =>
    intro idx0 idx h t
    simp only [buildIndexAux] at h
    cases hpe : processEntry fullTag idx0 e with
    | error err => rw [hpe] at h; cases h
    | ok idx1 =>
      rw [hpe] at h
      have hrest := ih idx1 idx h t
      rcases processEntry_cases fullTag idx0 e idx1 hpe with
        ⟨hnone, hid⟩ | ⟨ttl, hsome, happ⟩
      · subst hid
        rw [hrest]
        simp only [scanLocations, List.filterMap_cons, hnone]
        simp
      · subst happ
        rw [hrest]
        simp only [scanLocations, List.filterMap_cons, hsome]
        by_cases htt : ttl = t
        · subst htt
          rw [idxFind_appendIdx_self]
          simp [scanLocations]
        · rw [idxFind_appendIdx_ne idx0 ttl (e.1, e.2.1) t
            (fun hh => htt hh.symm)]
          simp only [Option.some.injEq]
          rw [if_neg htt]

/-- Mapping a total reader over a location list succeeds and preserves
order. -/
theorem mapM_map_ok {α : Type} (interpret : Str → α)
    (entryText : Nat × Nat → Str) (l : List (Nat × Nat)) :
    List.mapM (fun bo => (Except.ok (entryText bo) : Except PyExc Str).map interpret) l
      = .ok (l.map (fun bo => interpret (entryText bo))) := by
  induction l with
  | nil => rfl
  | cons a rest ih =>
    rw [List.mapM_cons, ih]
    rfl

/-- Claim C9: a title occurring in several scanned entries maps to the
list of its locations in scan order (appending, never overwriting), and
getitem interprets the entries read at those locations in exactly that
order. -/
theorem index_append_order (titleTag : Str) (scan : List (Nat × Nat × Str))
    (idx : Idx) (title : Str) {α : Type} (interpret : Str → α)
    (entryText : Nat × Nat → Str)
    (hbuild : buildIndexFromScan titleTag scan = .ok idx) :
    (idxFind idx title).getD [] = scanLocations (mkTitleTag titleTag) title scan ∧
    (scanLocations (mkTitleTag titleTag) title scan ≠ [] →
      getItem interpret (fun bo => .ok (entryText bo)) idx title =
        .ok ((scanLocations (mkTitleTag titleTag) title scan).map
          (fun bo => interpret (entryText bo)))) := by
  have h1 := buildIndexAux_find (mkTitleTag titleTag) scan [] idx hbuild title
  simp only [idxFind, Option.getD_none, List.nil_append] at h1
  refine ⟨h1, ?_⟩
  intro hne
  unfold getItem
  cases hf : idxFind idx title with
  | none =>
    rw [hf] at h1
    simp only [Option.getD_none] at h1
    exact absurd h1.symm hne
  | some l =>
    rw [hf] at h1
    simp only [Option.getD_some] at h1
    rw [← h1]
    exact mapM_map_ok interpret entryText l

/-- Witness for C9: the same title in two blocks yields a two-element
location list in scan order and getitem returns both entries in order. -/
theorem index_append_order_witness :
    (idxFind demoIdx [97]).getD [] = [(0, 0), (1, 5)] ∧
    getItem (fun s => s) (fun _ => Except.ok demoTxt) demoIdx [97] =
      .ok [demoTxt, demoTxt] := by
  have h := index_append_order dtag demoScan demoIdx [97] (fun s => s)
    (fun _ => demoTxt) (by decide)
  exact ⟨h.1.trans (by decide), (h.2 (by decide)).trans (by decide)⟩

/-- Every pair yielded by the entry enumeration comes from a successful
frame at its own offset. -/
theorem mem_readEntriesAux (decode : List Nat → Except PyExc Str)
    (buf : List Nat) :
    ∀ fuel pos off t, (off, t) ∈ (readEntriesAux decode buf fuel pos).1 →
    ∃ q, entryFromBlock decode buf off = .ok (t, q) := by
  intro fuel
  induction fuel with
  | zero => intro pos off t h; simp [readEntriesAux] at h
  | succ fuel ih =>
    intro pos off t h
    simp only [readEntriesAux] at h
    by_cases hp : pos < buf.length
    · rw [if_pos hp] at h
      cases hfb : entryFromBlock decode buf pos with
      | error e => rw [hfb] at h; simp at h
      | ok pr =>
        obtain ⟨t0, pos2⟩ := pr
        rw [hfb] at h
        simp only [List.mem_cons, Prod.mk.injEq] at h
        rcases h with ⟨hoff, ht⟩ | hmem
        · subst hoff ht
          exact ⟨pos2, hfb⟩
        · exact ih pos2 off t hmem
    · rw [if_neg hp] at h
      simp at h

/-- Framing the slice starting at an offset equals framing the full buffer
at that offset, with the cursor shifted back. -/
theorem entryFromBlock_drop (decode : List Nat → Except PyExc Str)
    (buf : List Nat) (off : Nat) :
    entryFromBlock decode (buf.drop off) 0 =
      (entryFromBlock decode buf off).map (fun p => (p.1, p.2 - off)) := by
  have h3 : ∀ m n, readBytesPad (buf.drop off) m n = readBytesPad buf (off + m) n := by
    intro m n
    simp [readBytesPad, List.drop_drop]
  have h4 : ∀ m n, bytesRead (buf.drop off) m n = bytesRead buf (off + m) n := by
    intro m n
    simp [bytesRead, List.drop_drop]
  simp only [entryFromBlock, h3, h4, Nat.zero_add, Nat.add_zero]
  cases hd : decode (readBytesPad buf (off + bytesRead buf off 4)
      (le32 (readBytesPad buf off 4))) with
  | error e => simp [hd, Except.map]
  | ok t =>
    simp [hd, Except.map, Prod.ext_iff]
    omega

/-- Every triple of the full scan locates its entry in the buffer of its
own block. -/
theorem mem_blockScanAux (decode : List Nat → Except PyExc Str) :
    ∀ (bufs : List (List Nat)) (b0 b off : Nat) (t : Str),
    (b, off, t) ∈ blockScanAux decode b0 bufs →
    b0 ≤ b ∧ ∃ buf, bufs[b - b0]? = some buf ∧
      (off, t) ∈ (readEntries decode buf).1 := by
  intro bufs
  induction bufs with
  | nil => intro b0 b off t h; simp [blockScanAux] at h
  | cons buf rest ih =>
    intro b0 b off t h
    simp only [blockScanAux, List.mem_append, List.mem_map] at h
    rcases h with ⟨p, hp, heq⟩ | hmem
    · rw [Prod.mk.injEq, Prod.mk.injEq] at heq
      obtain ⟨hb, hoff, ht⟩ := heq
      subst hb
      refine ⟨Nat.le_refl b0, buf, by simp, ?_⟩
      rw [← hoff, ← ht]
      exact hp
    · obtain ⟨hle, buf', hget, hm⟩ := ih (b0 + 1) b off t hmem
      refine ⟨by omega, buf', ?_, hm⟩
      have hb : b - b0 = (b - (b0 + 1)) + 1 := by omega
      rw [hb]
      simpa using hget

/-- Claim C8: every location the built index records for a title points,
in its own block's decompressed buffer, at an entry whose single-entry
read returns exactly the text observed for that location during the full
scan. -/
theorem lookup_matches_scan (decode : List Nat → Except PyExc Str)
    (bufs : List (List Nat)) (titleTag : Str) (idx : Idx) (title : Str)
    (b off : Nat)
    (hbuild : buildIndexFromScan titleTag (blockScan decode bufs) = .ok idx)
    (hmem : (b, off) ∈ (idxFind idx title).getD []) :
    ∃ buf t, bufs[b]? = some buf ∧ (b, off, t) ∈ blockScan decode bufs ∧
      readEntryFromBuf decode buf off = .ok t := by
  have h1 := buildIndexAux_find (mkTitleTag titleTag) (blockScan decode bufs)
    [] idx hbuild title
  simp only [idxFind, Option.getD_none, List.nil_append] at h1
  rw [h1] at hmem
  simp only [scanLocations, List.mem_filterMap] at hmem
  obtain ⟨e, hescan, hef⟩ := hmem
  obtain ⟨b', o', tx⟩ := e
  by_cases ht : titleOf (mkTitleTag titleTag) tx = some title
  · rw [if_pos ht] at hef
    rw [Option.some.injEq, Prod.mk.injEq] at hef
    obtain ⟨hb, hoff⟩ := hef
    subst hb hoff
    obtain ⟨_, buf, hget, hm⟩ :=
      mem_blockScanAux decode bufs 0 b' o' tx hescan
    rw [Nat.sub_zero] at hget
    obtain ⟨q, hfb⟩ := mem_readEntriesAux decode buf
      (buf.length + 1) 0 o' tx hm
    refine ⟨buf, tx, hget, hescan, ?_⟩
    unfold readEntryFromBuf
    rw [entryFromBlock_drop, hfb]
    rfl
  · rw [if_neg ht] at hef
    cases hef
  
/-- Witness for C8: the single entry of a one-block container resolves to
the text the scan yielded for it. -/
theorem lookup_matches_scan_witness :
    ([demoBuf] : List (List Nat))[0]? = some demoBuf ∧
    (0, 0, demoTxt) ∈ blockScan utf8Decode [demoBuf] ∧
    readEntryFromBuf utf8Decode demoBuf 0 = .ok demoTxt := by
  obtain ⟨buf, t, h1, h2, h3⟩ :=
    lookup_matches_scan utf8Decode [demoBuf] dtag [([97], [(0, 0)])] [97] 0 0
      (by decide) (by decide)
  have hb : demoBuf = buf := by
    simpa using h1
  subst hb
  have ht : t = demoTxt := by
    rw [show blockScan utf8Decode [demoBuf] = [(0, 0, demoTxt)] from by decide] at h2
    simpa using h2
  subst ht
  exact ⟨h1, h2, h3⟩

end Osx
